import Mathlib

/-!
Shallow embedding of the component-index subsystem of `pymel/core/nodetypes.py`
(classes `Component`, `DimensionedComponent`, `DiscreteComponent`,
`ContinuousComponent`, `ComponentIndex`, `NurbsSurfaceIsoparm`, and the
module-level helpers `_sequenceToComponentSlice` / `_formatSlice`), together
with theorems settling the frozen claims about that code.

Python `slice` objects become `HashableSlice` records of optional integers;
Python duck-typed index entries (int / slice / iterable) become the closed sum
`DimEntry`; exceptions become the `PErr` error type carried by `Except`.
External-collaborator calls (`_dimLength`) are passed in as function
parameters, exactly as the Python methods defer them to derived classes.
-/

namespace Pymel

/-- Error kinds raised by the component subsystem (the Python code raises
`IndexError` / `ValueError` / `MayaComponentError` with distinguishing
messages; we keep one constructor per distinguishable condition). -/
inductive PErr where
  | outOfRange
  | negativeStep
  | invalidType
  | notIndexable
  | nestedIterable
  | sliceStepUnsupported
  | labelConflict
  | valueError
deriving DecidableEq, Repr

/-- A Python slice over integers: `HashableSlice` in the source, with
`start` / `stop` / `step` each possibly `None`. -/
structure HashableSlice where
  start : Option Int
  stop : Option Int
  step : Option Int
deriving DecidableEq, Repr

/-- One dimension entry of a component index, as the duck-typed Python code
distinguishes them: an integer scalar, a slice, or an iterable of entries
(list/tuple). -/
inductive DimEntry where
  | scalar (i : Int)
  | slice (s : HashableSlice)
  | iterable (xs : List DimEntry)

mutual

def DimEntry.decEq : (a b : DimEntry) → Decidable (a = b)
  | .scalar a, .scalar b =>
    if h : a = b then isTrue (by rw [h])
    else isFalse (by intro he; injection he; contradiction)
  | .slice a, .slice b =>
    if h : a = b then isTrue (by rw [h])
    else isFalse (by intro he; injection he; contradiction)
  | .iterable a, .iterable b =>
    match DimEntry.decEqList a b with
    | isTrue h => isTrue (by rw [h])
    | isFalse h => isFalse (by intro he; injection he; contradiction)
  | .scalar _, .slice _ => isFalse (fun h => DimEntry.noConfusion h)
  | .scalar _, .iterable _ => isFalse (fun h => DimEntry.noConfusion h)
  | .slice _, .scalar _ => isFalse (fun h => DimEntry.noConfusion h)
  | .slice _, .iterable _ => isFalse (fun h => DimEntry.noConfusion h)
  | .iterable _, .scalar _ => isFalse (fun h => DimEntry.noConfusion h)
  | .iterable _, .slice _ => isFalse (fun h => DimEntry.noConfusion h)

def DimEntry.decEqList : (a b : List DimEntry) → Decidable (a = b)
  | [], [] => isTrue rfl
  | a :: as, b :: bs =>
    match DimEntry.decEq a b with
    | isTrue h1 =>
      match DimEntry.decEqList as bs with
      | isTrue h2 => isTrue (by rw [h1, h2])
      | isFalse h2 => isFalse (by intro he; injection he; contradiction)
    | isFalse h1 => isFalse (by intro he; injection he; contradiction)
  | [], _ :: _ => isFalse (fun h => List.noConfusion h)
  | _ :: _, [] => isFalse (fun h => List.noConfusion h)

end

instance : DecidableEq DimEntry := DimEntry.decEq

/-- `ComponentIndex`: a tuple of dimension entries with an optional label
(`None`/empty labels are falsy in the Python code and modelled as `none`). -/
structure ComponentIndex where
  entries : List DimEntry
  label : Option String
deriving DecidableEq

/-- Append one entry to a `ComponentIndex`, keeping its label — the Python
`x + (dimIndex,)` tuple-add on a `ComponentIndex`. -/
def ComponentIndex.push (ci : ComponentIndex) (e : DimEntry) : ComponentIndex :=
  ⟨ci.entries ++ [e], ci.label⟩

/-- `ComponentIndex.__add__`: concatenate entries; adopt the other's label if
ours is falsy, keep ours if the other's is falsy, and raise `ValueError`
(`LabelConflict`) when both are non-null and differ. -/
def ComponentIndex.add (self other : ComponentIndex) : Except PErr ComponentIndex :=
  match other.label with
  | some lo =>
    match self.label with
    | none => .ok ⟨self.entries ++ other.entries, some lo⟩
    | some ls =>
      if lo ≠ ls then .error .labelConflict
      else .ok ⟨self.entries ++ other.entries, some ls⟩
  | none => .ok ⟨self.entries ++ other.entries, self.label⟩

/-- Number of elements of Python `xrange(start, stop, step)` (`step ≠ 0`). -/
def rangeLen (start stop step : Int) : Nat :=
  if 0 < step ∧ start < stop then ((stop - start - 1) / step + 1).toNat
  else if step < 0 ∧ stop < start then ((start - stop - 1) / (-step) + 1).toNat
  else 0

/-- The list enumerated by Python `xrange(start, stop, step)` (`step ≠ 0`). -/
def rangeList (start stop step : Int) : List Int :=
  (List.range (rangeLen start stop step)).map
    (fun k : Nat => start + step * (k : Int))

/-- CPython `slice(start, stop, step).indices(length)` at the shapes the
source calls it with: `start` and `step` already concrete integers (they were
defaulted to `0` / `1` beforehand), `stop` possibly `None`. -/
def pySliceIndicesResolve (start : Int) (stop : Option Int) (step : Int)
    (length : Int) : Int × Int × Int :=
  let lower : Int := if step < 0 then -1 else 0
  let upper : Int := if step < 0 then length - 1 else length
  let start' := if start < 0 then max (start + length) lower else min start upper
  let stop' :=
    match stop with
    | none => if step < 0 then lower else upper
    | some s => if s < 0 then max (s + length) lower else min s upper
  (start', stop', step)

/-- `DiscreteComponent._sliceToIndices`: expand a slice at the next dimension
after `partialIdx` into concrete indices.  `dimLength` stands for the
domain-specific `_dimLength` collaborator.  Maya slices are inclusive of a
given non-negative `stop` (it is incremented by 1); a `None` stop or any
negative `start`/`stop`/`step` is resolved against the dimension length with
Python half-open `slice.indices` semantics.  A zero step makes the Python
`xrange` raise `ValueError`. -/
def discreteSliceToIndices (dimLength : ComponentIndex → Nat)
    (sliceObj : HashableSlice) (partialIdx : ComponentIndex) :
    Except PErr (List ComponentIndex) :=
  let start := sliceObj.start.getD 0
  let step := sliceObj.step.getD 1
  -- convert 'maya slices' to 'python slices': bump a given non-negative stop
  let stop : Option Int :=
    match sliceObj.stop with
    | some s => if 0 ≤ s then some (s + 1) else some s
    | none => none
  if step = 0 then .error .valueError
  else
    let resolved : Int × Int × Int :=
      if stop = none ∨ start < 0 ∨ (stop.getD 0) < 0 ∨ step < 0 then
        pySliceIndicesResolve start stop step (dimLength partialIdx)
      else (start, stop.getD 0, step)
    .ok ((rangeList resolved.1 resolved.2.1 resolved.2.2).map
          (fun i => partialIdx.push (.scalar i)))

/-- `DiscreteComponent._dimRange`: the inclusive valid index range of the next
dimension, `(-length, length - 1)`. -/
def discreteDimRange (len : Nat) : Int × Int :=
  (-(len : Int), (len : Int) - 1)

/-- `DiscreteComponent._translateNegativeIndice`: translate a negative scalar
index relative to a partial index by adding the dimension length. -/
def translateNegativeIndice (dimLength : ComponentIndex → Nat) (negIndex : Int)
    (partialIdx : ComponentIndex) : Int :=
  (dimLength partialIdx : Int) + negIndex

/-- Pad an index on the right with open slices (`HashableSlice(None)`) until
its length reaches the dimensionality — the `while len(index) < dimensions`
loop at the top of `_flattenIndex`. -/
def padIndex (dims : Nat) (index : ComponentIndex) : ComponentIndex :=
  ⟨index.entries ++
     List.replicate (dims - index.entries.length) (.slice ⟨none, none, none⟩),
   index.label⟩

/-- The inner loop of the slice branch of `_flattenIndex`:
`newIndices = []; for oldPartial in indices: newIndices.extend(
self._sliceToIndices(dimIndex, partialIndex=oldPartial))`. -/
def extendAll (dimLength : ComponentIndex → Nat) (s : HashableSlice) :
    List ComponentIndex → Except PErr (List ComponentIndex)
  | [] => .ok []
  | oldP :: rest => do
    let e ← discreteSliceToIndices dimLength s oldP
    let r ← extendAll dimLength s rest
    .ok (e ++ r)

/-- One dimension step of `_flattenIndex` with `allowIterable=False`: expand
every accumulated prefix against the entry.  An iterable entry below the top
level raises `IndexError(index)` (`NestedIterableError` in the spec). -/
def flattenStepNoIter (dimLength : ComponentIndex → Nat)
    (indices : List ComponentIndex) (dimIndex : DimEntry) :
    Except PErr (List ComponentIndex) :=
  match dimIndex with
  | .slice s => extendAll dimLength s indices
  | .iterable _ => .error .nestedIterable
  | .scalar i =>
    if i < 0 then
      .ok (indices.map (fun x => x.push (.scalar (translateNegativeIndice dimLength i x))))
    else
      .ok (indices.map (fun x => x.push (.scalar i)))

/-- The dimension loop of `_flattenIndex` with `allowIterable=False`. -/
def flattenLoopNoIter (dimLength : ComponentIndex → Nat) :
    List DimEntry → List ComponentIndex → Except PErr (List ComponentIndex)
  | [], indices => .ok indices
  | dimIndex :: rest, indices => do
    let indices' ← flattenStepNoIter dimLength indices dimIndex
    flattenLoopNoIter dimLength rest indices'

/-- `DiscreteComponent._flattenIndex` with `allowIterable=False`: pad, then
run the dimension entries left to right over the accumulated prefixes. -/
def discreteFlattenNoIter (dims : Nat) (dimLength : ComponentIndex → Nat)
    (index : ComponentIndex) : Except PErr (List ComponentIndex) :=
  flattenLoopNoIter dimLength (padIndex dims index).entries [⟨[], index.label⟩]

/-- The inner loop of the top-level iterable branch of `_flattenIndex`:
`for indice in dimIndex: newIndices.extend(self._flattenIndex(
oldPartial + (indice,), allowIterable=False))`. -/
def iterElems (dims : Nat) (dimLength : ComponentIndex → Nat)
    (oldP : ComponentIndex) :
    List DimEntry → Except PErr (List ComponentIndex)
  | [] => .ok []
  | ind :: rest => do
    let e ← discreteFlattenNoIter dims dimLength ⟨oldP.entries ++ [ind], oldP.label⟩
    let r ← iterElems dims dimLength oldP rest
    .ok (e ++ r)

/-- The outer loop of the top-level iterable branch of `_flattenIndex`:
`for oldPartial in indices: ...`. -/
def iterExtend (dims : Nat) (dimLength : ComponentIndex → Nat)
    (xs : List DimEntry) :
    List ComponentIndex → Except PErr (List ComponentIndex)
  | [] => .ok []
  | oldP :: rest => do
    let per ← iterElems dims dimLength oldP xs
    let r ← iterExtend dims dimLength xs rest
    .ok (per ++ r)

/-- The dimension loop of `_flattenIndex` with `allowIterable=True`.  The
iterable branch returns early: each element of the iterable is appended to
each accumulated prefix and recursively flattened with iterables disallowed,
and the remaining dimension entries are discarded (the Python `return
newIndices` inside the loop). -/
def flattenLoopTop (dims : Nat) (dimLength : ComponentIndex → Nat) :
    List DimEntry → List ComponentIndex → Except PErr (List ComponentIndex)
  | [], indices => .ok indices
  | dimIndex :: rest, indices =>
    match dimIndex with
    | .iterable xs => iterExtend dims dimLength xs indices
    | _ => do
      let indices' ← flattenStepNoIter dimLength indices dimIndex
      flattenLoopTop dims dimLength rest indices'

/-- `DiscreteComponent._flattenIndex` (top level, `allowIterable=True`). -/
def discreteFlattenIndex (dims : Nat) (dimLength : ComponentIndex → Nat)
    (index : ComponentIndex) : Except PErr (List ComponentIndex) :=
  flattenLoopTop dims dimLength (padIndex dims index).entries [⟨[], index.label⟩]

/-- `DiscreteComponent.VALID_SINGLE_INDEX_TYPES = (int, long, slice,
HashableSlice)`: integers and slices are valid single indices, iterables
(lists/tuples) are not. -/
def discreteValidSingle : DimEntry → Bool
  | .scalar _ => true
  | .slice _ => true
  | .iterable _ => false

/-- The final bounds test of `_validateGetItemIndice`:
`minIndex < allowedRange[0] or maxIndex > allowedRange[1]` raises the
out-of-range `IndexError`. -/
def checkAllowedRange (allowedRange : Int × Int) (minI maxI : Int) :
    Except PErr Unit :=
  if minI < allowedRange.1 ∨ maxI > allowedRange.2 then .error .outOfRange
  else .ok ()

/-- Endpoint type check (`isinstance(maxIndex, VALID_...)`) followed by the
allowed-range check. -/
def endpointCheck (valid : DimEntry → Bool) (allowedRange : Int × Int)
    (minI maxI : Int) : Except PErr Unit :=
  if ¬ valid (.scalar maxI) ∨ ¬ valid (.scalar minI) then .error .invalidType
  else checkAllowedRange allowedRange minI maxI

/-- The slice-endpoint analysis of `_validateGetItemIndice`: an open slice
`[:]` is always valid; otherwise the present endpoints give `minIndex` /
`maxIndex`, which are type-checked and then range-checked. -/
def validateSliceEndpoints (valid : DimEntry → Bool) (allowedRange : Int × Int)
    (s : HashableSlice) : Except PErr Unit :=
  match s.start, s.stop with
  | none, none => .ok ()
  | none, some b => endpointCheck valid allowedRange b b
  | some a, none => endpointCheck valid allowedRange a a
  | some a, some b => endpointCheck valid allowedRange (min a b) (max a b)

/-- The body of `_validateGetItemIndice` after the iterable branch: type
check, negative-step check, then bounds check against the inclusive allowed
range.  `valid` stands for the `isinstance(_, VALID_SINGLE_INDEX_TYPES)`
test of the concrete component class. -/
def validateSingleIndice (valid : DimEntry → Bool) (allowedRange : Int × Int)
    (item : DimEntry) : Except PErr Unit :=
  if valid item then
    match item with
    | .slice s =>
      -- 'if item.step and item.step < 0' - a truthy (non-None, non-zero)
      -- negative step is rejected
      match s.step with
      | some st =>
        if st < 0 then .error .negativeStep
        else validateSliceEndpoints valid allowedRange s
      | none => validateSliceEndpoints valid allowedRange s
    | .scalar i => checkAllowedRange allowedRange i i
    | .iterable _ =>
      -- unreachable for the real VALID_SINGLE_INDEX_TYPES tuples, which
      -- contain no iterable type
      .ok ()
  else .error .invalidType

/-- `DimensionedComponent._validateGetItemIndice` with `allowIterables=True`.
For an iterable item the Python loop `for x in item:` re-validates the WHOLE
item (not `x`) with iterables disallowed, once per element — so an empty
iterable passes and a non-empty one fails on its first element. -/
def validateGetItemIndice (valid : DimEntry → Bool) (allowedRange : Int × Int)
    (item : DimEntry) : Except PErr Unit :=
  match item with
  | .iterable xs =>
    if xs.isEmpty then .ok ()
    else validateSingleIndice valid allowedRange (.iterable xs)
  | _ => validateSingleIndice valid allowedRange item

/-- The state of a progressive (chained-indexing) component:
dimensionality plus `_partialIndex` (`none` means indexing is not allowed,
matching `_partialIndex = None`). -/
structure PComp where
  dims : Nat
  partialIdx : Option ComponentIndex
deriving DecidableEq

/-- `DimensionedComponent.currentDimension`: the number of dimensions already
fixed, or `none` once the component is fully specified. -/
def currentDimension (c : PComp) : Option Nat :=
  match c.partialIdx with
  | some idx => if idx.entries.length < c.dims then some idx.entries.length else none
  | none => none

/-- `DimensionedComponent.__getitem__` followed by the `__init__` of the new
instance: refuse a fully specified component, validate the item against the
dimension range at the current partial index, then build a new component
whose `_partialIndex` is the extended index (or `None` once all dimensions
are specified).  `dimLength` is the `_dimLength` collaborator used by
`_dimRange` for a discrete component. -/
def getitem (valid : DimEntry → Bool) (dimLength : ComponentIndex → Nat)
    (c : PComp) (item : DimEntry) : Except PErr PComp :=
  match c.partialIdx with
  | some p =>
    if p.entries.length < c.dims then do
      validateGetItemIndice valid (discreteDimRange (dimLength p)) item
      let newIdx : ComponentIndex := ⟨p.entries ++ [item], p.label⟩
      .ok ⟨c.dims, if newIdx.entries.length < c.dims then some newIdx else none⟩
    else .error .notIndexable
  | none => .error .notIndexable

/-! ## Helper lemmas about the discrete slice expander -/

/-- Expansion of a slice whose start, stop and step are all given and
non-negative (step positive): the stop is bumped by one and the range is
enumerated directly, without consulting the dimension length. -/
theorem discreteSliceToIndices_nonneg (dimLength : ComponentIndex → Nat)
    (pIdx : ComponentIndex) (a b st : Int) (ha : 0 ≤ a) (hb : 0 ≤ b)
    (hst : 0 < st) :
    discreteSliceToIndices dimLength ⟨some a, some b, some st⟩ pIdx =
      .ok ((rangeList a (b + 1) st).map (fun i => pIdx.push (.scalar i))) := by
  have h0 : ¬ st = 0 := by omega
  have h1 : ¬ b + 1 < 0 := by omega
  have h2 : ¬ a < 0 := by omega
  have h3 : ¬ st < 0 := by omega
  simp [discreteSliceToIndices, h0, h1, h2, h3, hb]

/-- Expansion of a slice with a `None` stop and non-negative start, positive
step: resolved against the dimension length as the half-open range
`[min a length, length)`. -/
theorem discreteSliceToIndices_noStop (dimLength : ComponentIndex → Nat)
    (pIdx : ComponentIndex) (a st : Int) (ha : 0 ≤ a) (hst : 0 < st) :
    discreteSliceToIndices dimLength ⟨some a, none, some st⟩ pIdx =
      .ok ((rangeList (min a (dimLength pIdx : Int)) (dimLength pIdx : Int) st).map
            (fun i => pIdx.push (.scalar i))) := by
  have h0 : ¬ st = 0 := by omega
  have h2 : ¬ a < 0 := by omega
  have h3 : ¬ st < 0 := by omega
  simp [discreteSliceToIndices, pySliceIndicesResolve, h0, h2, h3]

/-! ## Claim theorems: slice expansion, negative indices, progressive
indexing, validation -/

/-- C1: for a 1-D discrete dimension of length 10, expanding the slice
`(2, 5, 1)` yields exactly `[2,3,4,5]` (inclusive stop) and `(2, None, 1)`
yields `[2,...,9]`; in general a given non-negative stop is bumped by 1
before enumeration, while a `None` stop (or a negative start/stop/step) is
resolved against the dimension length with standard Python half-open
`slice.indices` semantics. -/
theorem C1_slice_expansion_inclusive :
    (discreteSliceToIndices (fun _ => 10) ⟨some 2, some 5, some 1⟩ ⟨[], none⟩ =
      .ok ([2, 3, 4, 5].map (fun i => (⟨[.scalar i], none⟩ : ComponentIndex)))) ∧
    (discreteSliceToIndices (fun _ => 10) ⟨some 2, none, some 1⟩ ⟨[], none⟩ =
      .ok ([2, 3, 4, 5, 6, 7, 8, 9].map
            (fun i => (⟨[.scalar i], none⟩ : ComponentIndex)))) ∧
    (∀ (dimLength : ComponentIndex → Nat) (pIdx : ComponentIndex) (a b st : Int),
      0 ≤ a → 0 ≤ b → 0 < st →
      discreteSliceToIndices dimLength ⟨some a, some b, some st⟩ pIdx =
        .ok ((rangeList a (b + 1) st).map (fun i => pIdx.push (.scalar i)))) ∧
    (∀ (dimLength : ComponentIndex → Nat) (pIdx : ComponentIndex) (a st : Int),
      0 ≤ a → 0 < st →
      discreteSliceToIndices dimLength ⟨some a, none, some st⟩ pIdx =
        .ok ((rangeList (min a (dimLength pIdx : Int)) (dimLength pIdx : Int) st).map
              (fun i => pIdx.push (.scalar i)))) ∧
    (∀ (dimLength : ComponentIndex → Nat) (pIdx : ComponentIndex) (a b st : Int),
      st ≠ 0 → (b < 0 ∨ a < 0 ∨ st < 0) →
      discreteSliceToIndices dimLength ⟨some a, some b, some st⟩ pIdx =
        .ok (let r := pySliceIndicesResolve a
                        (if 0 ≤ b then some (b + 1) else some b) st (dimLength pIdx)
             (rangeList r.1 r.2.1 r.2.2).map (fun i => pIdx.push (.scalar i)))) := by
  refine ⟨by rfl, by rfl,
          discreteSliceToIndices_nonneg, discreteSliceToIndices_noStop, ?_⟩
  intro dimLength pIdx a b st h0 hneg
  simp only [discreteSliceToIndices, Option.getD_some, if_neg h0]
  rcases hneg with hb | ha | hst
  · rw [if_pos (Or.inr (Or.inr (Or.inl (by
      rw [if_neg (by omega : ¬ 0 ≤ b)]; simpa using hb))))]
  · rw [if_pos (Or.inr (Or.inl ha))]
  · rw [if_pos (Or.inr (Or.inr (Or.inr hst)))]

/-- Witness for the quantified parts of `C1_slice_expansion_inclusive`. -/
theorem C1_slice_expansion_inclusive_witness :
    discreteSliceToIndices (fun _ => 7) ⟨some 1, some 4, some 2⟩ ⟨[], none⟩ =
      .ok ((rangeList 1 5 2).map
            (fun i => ComponentIndex.push ⟨[], none⟩ (.scalar i))) :=
  C1_slice_expansion_inclusive.2.2.1 (fun _ => 7) ⟨[], none⟩ 1 4 2
    (by decide) (by decide) (by decide)

/-- C2: for a discrete domain the inclusive bounds of the next dimension
after a partial index `P` are `(-length(P), length(P) - 1)`, and during
flattening a negative scalar `i` is translated to `length(P) + i` relative to
the accumulated prefix; concretely, with `length = 10` index `-1` flattens to
the same element as `9`, `-10` to the same as `0`, and getitem validation of
`-11` fails with the out-of-range IndexError. -/
theorem C2_negative_index_translation :
    (∀ len : Nat, discreteDimRange len = (-(len : Int), (len : Int) - 1)) ∧
    (∀ (dimLength : ComponentIndex → Nat) (prefixes : List ComponentIndex) (i : Int),
      i < 0 →
      flattenStepNoIter dimLength prefixes (.scalar i) =
        .ok (prefixes.map (fun x => x.push (.scalar ((dimLength x : Int) + i))))) ∧
    (discreteFlattenIndex 1 (fun _ => 10) ⟨[.scalar (-1)], none⟩ =
      discreteFlattenIndex 1 (fun _ => 10) ⟨[.scalar 9], none⟩) ∧
    (discreteFlattenIndex 1 (fun _ => 10) ⟨[.scalar (-10)], none⟩ =
      discreteFlattenIndex 1 (fun _ => 10) ⟨[.scalar 0], none⟩) ∧
    (validateGetItemIndice discreteValidSingle (discreteDimRange 10)
      (.scalar (-11)) = .error .outOfRange) := by
  refine ⟨fun len => rfl, ?_, by rfl, by rfl, by rfl⟩
  intro dimLength prefixes i hi
  simp only [flattenStepNoIter, if_pos hi, translateNegativeIndice]

/-- Witness for the quantified parts of `C2_negative_index_translation`. -/
theorem C2_negative_index_translation_witness :
    flattenStepNoIter (fun _ => 10) [⟨[], none⟩] (.scalar (-3)) =
      .ok ([(⟨[], none⟩ : ComponentIndex)].map
            (fun x => x.push (.scalar (((fun _ => (10 : Nat)) x : Int) + (-3))))) :=
  C2_negative_index_translation.2.1 (fun _ => 10) [⟨[], none⟩] (-3) (by decide)

/-- C3: a ProgressiveComponent over a 2-D discrete domain indexed once has
`currentDimension = some 1`; indexed twice it has `currentDimension = none`,
and getitem on any component whose `currentDimension` is `none` always fails
with the not-indexable IndexError instead of returning a component. -/
theorem C3_progressive_indexing :
    (∀ (valid : DimEntry → Bool) (dimLength : ComponentIndex → Nat)
       (c : PComp) (item : DimEntry),
      currentDimension c = none →
      getitem valid dimLength c item = .error .notIndexable) ∧
    (getitem discreteValidSingle (fun _ => 10) ⟨2, some ⟨[], none⟩⟩ (.scalar 0) =
      .ok ⟨2, some ⟨[.scalar 0], none⟩⟩) ∧
    (currentDimension ⟨2, some ⟨[.scalar 0], none⟩⟩ = some 1) ∧
    (getitem discreteValidSingle (fun _ => 10) ⟨2, some ⟨[.scalar 0], none⟩⟩
      (.scalar 3) = .ok ⟨2, none⟩) ∧
    (currentDimension (⟨2, none⟩ : PComp) = none) ∧
    (∀ item : DimEntry,
      getitem discreteValidSingle (fun _ => 10) ⟨2, none⟩ item =
        .error .notIndexable) := by
  refine ⟨?_, by rfl, by rfl, by rfl, by rfl, fun item => rfl⟩
  intro valid dimLength c item hc
  match hp : c.partialIdx with
  | none => simp [getitem, hp]
  | some p =>
    simp only [currentDimension, hp] at hc
    have hlen : ¬ p.entries.length < c.dims := by
      by_contra h
      rw [if_pos h] at hc
      exact Option.noConfusion hc
    simp [getitem, hp, hlen]

/-- Witness for the quantified part of `C3_progressive_indexing`. -/
theorem C3_progressive_indexing_witness :
    getitem discreteValidSingle (fun _ => 4) ⟨1, some ⟨[.scalar 2], none⟩⟩
      (.scalar 0) = .error .notIndexable :=
  C3_progressive_indexing.1 discreteValidSingle (fun _ => 4)
    ⟨1, some ⟨[.scalar 2], none⟩⟩ (.scalar 0) (by rfl)

/-- C8 counterexample: the claim says a range with negative step is never
accepted or expanded by any path, but `DiscreteComponent._sliceToIndices`
(the direct standardization/expansion path) expands the slice `(5, 1, -1)` on
a dimension of length 10 into the indices `[5, 4, 3]` instead of raising. -/
theorem C8_negative_step_counterexample :
    discreteSliceToIndices (fun _ => 10) ⟨some 5, some 1, some (-1)⟩ ⟨[], none⟩ =
      .ok ([5, 4, 3].map (fun i => (⟨[.scalar i], none⟩ : ComponentIndex))) := by
  rfl

/-- C8 (amended): chained getitem validation always rejects a range whose
step is negative with the negative-step IndexError, but the direct slice
expansion `_sliceToIndices` does not reject negative steps - it resolves them
against the dimension length with Python half-open semantics and enumerates
them (e.g. `(5, 1, -1)` at length 10 expands to `[5, 4, 3]`). -/
theorem C8_negative_step_amended :
    (∀ (allowedRange : Int × Int) (a b : Option Int) (st : Int), st < 0 →
      validateGetItemIndice discreteValidSingle allowedRange
        (.slice ⟨a, b, some st⟩) = .error .negativeStep) ∧
    (discreteSliceToIndices (fun _ => 10) ⟨some 5, some 1, some (-1)⟩ ⟨[], none⟩ =
      .ok ([5, 4, 3].map (fun i => (⟨[.scalar i], none⟩ : ComponentIndex)))) := by
  refine ⟨?_, by rfl⟩
  intro allowedRange a b st hst
  simp [validateGetItemIndice, validateSingleIndice, discreteValidSingle, hst]

/-- Witness for the quantified part of `C8_negative_step_amended`. -/
theorem C8_negative_step_amended_witness :
    validateGetItemIndice discreteValidSingle (-10, 9)
      (.slice ⟨some 0, some 5, some (-2)⟩) = .error .negativeStep :=
  C8_negative_step_amended.1 (-10, 9) (some 0) (some 5) (-2) (by decide)

/-- C10: getitem validation applied to any non-empty iterable entry always
fails with the invalid-type IndexError, because the per-element loop
re-validates the whole iterable (with iterables disallowed) instead of each
element; an empty iterable passes validation and is appended to the partial
index by getitem. -/
theorem C10_iterable_validation_bug :
    (∀ (valid : DimEntry → Bool) (allowedRange : Int × Int) (xs : List DimEntry),
      xs ≠ [] → valid (.iterable xs) = false →
      validateGetItemIndice valid allowedRange (.iterable xs) =
        .error .invalidType) ∧
    (∀ (valid : DimEntry → Bool) (allowedRange : Int × Int),
      validateGetItemIndice valid allowedRange (.iterable []) = .ok ()) ∧
    (∀ (dimLength : ComponentIndex → Nat) (c : PComp) (p : ComponentIndex)
       (xs : List DimEntry),
      c.partialIdx = some p → p.entries.length < c.dims → xs ≠ [] →
      getitem discreteValidSingle dimLength c (.iterable xs) =
        .error .invalidType) ∧
    (∀ (dimLength : ComponentIndex → Nat) (c : PComp) (p : ComponentIndex),
      c.partialIdx = some p → p.entries.length < c.dims →
      getitem discreteValidSingle dimLength c (.iterable []) =
        .ok ⟨c.dims,
             if p.entries.length + 1 < c.dims then
               some ⟨p.entries ++ [.iterable []], p.label⟩
             else none⟩) := by
  have hval : ∀ (valid : DimEntry → Bool) (allowedRange : Int × Int)
      (xs : List DimEntry), xs ≠ [] → valid (.iterable xs) = false →
      validateGetItemIndice valid allowedRange (.iterable xs) =
        .error .invalidType := by
    intro valid allowedRange xs hne hv
    have hemp : xs.isEmpty = false := by
      cases xs with
      | nil => exact absurd rfl hne
      | cons a as => rfl
    simp [validateGetItemIndice, validateSingleIndice, hemp, hv]
  refine ⟨hval, ?_, ?_, ?_⟩
  · intro valid allowedRange
    rfl
  · intro dimLength c p xs hp hlen hne
    simp only [getitem, hp, if_pos hlen]
    rw [hval discreteValidSingle (discreteDimRange (dimLength p)) xs hne rfl]
    rfl
  · intro dimLength c p hp hlen
    simp only [getitem, hp, if_pos hlen]
    have : validateGetItemIndice discreteValidSingle
        (discreteDimRange (dimLength p)) (.iterable []) = .ok () := rfl
    rw [this]
    simp only [List.length_append, List.length_cons, List.length_nil]
    rfl

/-- Witness for `C10_iterable_validation_bug`. -/
theorem C10_iterable_validation_bug_witness :
    getitem discreteValidSingle (fun _ => 10) ⟨1, some ⟨[], none⟩⟩
      (.iterable [.scalar 1, .scalar 2]) = .error .invalidType :=
  C10_iterable_validation_bug.2.2.1 (fun _ => 10) ⟨1, some ⟨[], none⟩⟩
    ⟨[], none⟩ [.scalar 1, .scalar 2] rfl (by decide) (by simp)

/-! ## Continuous components -/

/-- A slice over continuous (floating-point) parameters; the parameter values
are carried verbatim (no float arithmetic happens in the embedded method), so
they are modelled as exact rationals. -/
structure CSlice where
  start : Option ℚ
  stop : Option ℚ
  step : Option ℚ
deriving DecidableEq

/-- A dimension entry of a continuous component index: a parameter value or a
kept (unexpanded) range. -/
inductive CDimEntry where
  | scalar (q : ℚ)
  | slice (s : CSlice)
deriving DecidableEq

/-- A `ComponentIndex` over continuous entries. -/
structure CComponentIndex where
  entries : List CDimEntry
  label : Option String
deriving DecidableEq

/-- `ContinuousComponent._sliceToIndices`: a slice with a non-`None` step
raises `MayaComponentError` (the spec's `SliceStepUnsupportedError`);
otherwise the slice is kept as a range entry (`HashableSlice(None)` for the
fully open slice, `HashableSlice(start, stop)` otherwise) appended to the
partial index, never expanded into discrete values. -/
def continuousSliceToIndices (sliceObj : CSlice) (partialIdx : CComponentIndex) :
    Except PErr (List CComponentIndex) :=
  if sliceObj.step ≠ none then .error .sliceStepUnsupported
  else if sliceObj.start = none ∧ sliceObj.stop = none then
    .ok [⟨partialIdx.entries ++ [.slice ⟨none, none, none⟩], partialIdx.label⟩]
  else
    .ok [⟨partialIdx.entries ++ [.slice ⟨sliceObj.start, sliceObj.stop, none⟩],
          partialIdx.label⟩]

/-- C5: on a continuous component, expanding a range with a non-null step
(e.g. `(0.0, 1.0, 2.0)`) raises `SliceStepUnsupportedError`, and a range
without a step is kept as a range value (a slice entry with the same start
and stop and no step) rather than being expanded into discrete indices. -/
theorem C5_continuous_step_unsupported :
    (∀ (s : CSlice) (pIdx : CComponentIndex) (st : ℚ), s.step = some st →
      continuousSliceToIndices s pIdx = .error .sliceStepUnsupported) ∧
    (continuousSliceToIndices ⟨some 0, some 1, some 2⟩ ⟨[], none⟩ =
      .error .sliceStepUnsupported) ∧
    (∀ (s : CSlice) (pIdx : CComponentIndex), s.step = none →
      continuousSliceToIndices s pIdx =
        .ok [⟨pIdx.entries ++ [.slice ⟨s.start, s.stop, none⟩], pIdx.label⟩]) := by
  refine ⟨?_, by rfl, ?_⟩
  · intro s pIdx st hst
    simp [continuousSliceToIndices, hst]
  · intro s pIdx hst
    rcases hs : s.start with _ | a
    · rcases ho : s.stop with _ | b
      · simp [continuousSliceToIndices, hst, hs, ho]
      · simp [continuousSliceToIndices, hst, hs, ho]
    · simp [continuousSliceToIndices, hst, hs]

/-- Witness for the quantified parts of `C5_continuous_step_unsupported`. -/
theorem C5_continuous_step_unsupported_witness :
    continuousSliceToIndices ⟨some (1/2), some 3, none⟩ ⟨[], some "u"⟩ =
      .ok [⟨[] ++ [.slice ⟨some (1/2), some 3, none⟩], some "u"⟩] :=
  C5_continuous_step_unsupported.2.2 ⟨some (1/2), some 3, none⟩ ⟨[], some "u"⟩ rfl

/-- C6: concatenating an index labeled `"u"` with an unlabeled one yields the
concatenated entries with label `"u"`; in general when at most one label is
non-null, `__add__` adopts the non-null label, and two different non-null
labels raise the label-conflict `ValueError`. -/
theorem C6_label_concat :
    (ComponentIndex.add ⟨[.scalar 3], some "u"⟩ ⟨[.scalar 4], none⟩ =
      .ok ⟨[.scalar 3, .scalar 4], some "u"⟩) ∧
    (∀ (e1 e2 : List DimEntry) (l : String),
      ComponentIndex.add ⟨e1, some l⟩ ⟨e2, none⟩ = .ok ⟨e1 ++ e2, some l⟩) ∧
    (∀ (e1 e2 : List DimEntry) (l : String),
      ComponentIndex.add ⟨e1, none⟩ ⟨e2, some l⟩ = .ok ⟨e1 ++ e2, some l⟩) ∧
    (∀ e1 e2 : List DimEntry,
      ComponentIndex.add ⟨e1, none⟩ ⟨e2, none⟩ = .ok ⟨e1 ++ e2, none⟩) ∧
    (∀ (e1 e2 : List DimEntry) (l1 l2 : String), l1 ≠ l2 →
      ComponentIndex.add ⟨e1, some l1⟩ ⟨e2, some l2⟩ = .error .labelConflict) ∧
    (ComponentIndex.add ⟨[.scalar 3], some "u"⟩ ⟨[.scalar 4], some "v"⟩ =
      .error .labelConflict) := by
  refine ⟨by rfl, fun e1 e2 l => rfl, fun e1 e2 l => rfl, fun e1 e2 => rfl,
          ?_, by rfl⟩
  intro e1 e2 l1 l2 h
  simp [ComponentIndex.add, Ne.symm h]

/-- Witness for the quantified part of `C6_label_concat`. -/
theorem C6_label_concat_witness :
    ComponentIndex.add ⟨[], some "rotatePivot"⟩ ⟨[], some "scalePivot"⟩ =
      .error .labelConflict :=
  C6_label_concat.2.2.2.2.1 [] [] "rotatePivot" "scalePivot" (by decide)

/-! ## Flatten ordering (C7) -/

/-- `Except` bind on a success, as a rewrite rule for unfolding the
embedded do-notation. -/
@[simp] theorem exceptOk_bind {α β : Type} (a : α) (f : α → Except PErr β) :
    (Except.ok a >>= f : Except PErr β) = f a := rfl

/-- `extendAll` agrees with per-prefix expansion when every prefix
succeeds: its output is the in-order concatenation of the per-prefix
expansions. -/
theorem extendAll_ok (dimLength : ComponentIndex → Nat) (s : HashableSlice)
    (f : ComponentIndex → List ComponentIndex) :
    ∀ l : List ComponentIndex,
      (∀ p ∈ l, discreteSliceToIndices dimLength s p = .ok (f p)) →
      extendAll dimLength s l = .ok ((l.map f).flatten) := by
  intro l
  induction l with
  | nil => intro _; rfl
  | cons a as ih =>
    intro h
    have ha := h a (by simp)
    have has := ih (fun p hp => h p (by simp [hp]))
    simp [extendAll, ha, has]

/-- C7 counterexample: flattening the index `(slice(0,2), slice(0,1))` on a
2-D discrete domain with dimension-1 length 5 does NOT produce
`[(0,0),(1,0),(2,0)]` — both slices expand with inclusive stops, giving six
indices, not three. -/
theorem C7_flatten_order_counterexample :
    ¬ (discreteFlattenIndex 2 (fun _ => 5)
        ⟨[.slice ⟨some 0, some 2, none⟩, .slice ⟨some 0, some 1, none⟩], none⟩ =
      .ok [⟨[.scalar 0, .scalar 0], none⟩, ⟨[.scalar 1, .scalar 0], none⟩,
           ⟨[.scalar 2, .scalar 0], none⟩]) := by
  intro h
  have h6 : discreteFlattenIndex 2 (fun _ => 5)
      ⟨[.slice ⟨some 0, some 2, none⟩, .slice ⟨some 0, some 1, none⟩], none⟩ =
    .ok [⟨[.scalar 0, .scalar 0], none⟩, ⟨[.scalar 0, .scalar 1], none⟩,
         ⟨[.scalar 1, .scalar 0], none⟩, ⟨[.scalar 1, .scalar 1], none⟩,
         ⟨[.scalar 2, .scalar 0], none⟩, ⟨[.scalar 2, .scalar 1], none⟩] := by rfl
  rw [h6] at h
  injection h with h'
  exact absurd h' (by decide)

/-- C7 (amended): flattening `(slice(0,2), slice(0,1))` on a 2-D discrete
domain with dimension-1 length 5 produces exactly
`[(0,0),(0,1),(1,0),(1,1),(2,0),(2,1)]` in that order (both stops are
inclusive); in general dimensions are processed left to right and the output
is ordered by prefix order from the previous dimension, then by ascending
expansion order within each prefix (the result is the in-order concatenation,
over the dimension-0 prefixes, of each prefix's dimension-1 expansion). -/
theorem C7_flatten_order_amended :
    (discreteFlattenIndex 2 (fun _ => 5)
        ⟨[.slice ⟨some 0, some 2, none⟩, .slice ⟨some 0, some 1, none⟩], none⟩ =
      .ok [⟨[.scalar 0, .scalar 0], none⟩, ⟨[.scalar 0, .scalar 1], none⟩,
           ⟨[.scalar 1, .scalar 0], none⟩, ⟨[.scalar 1, .scalar 1], none⟩,
           ⟨[.scalar 2, .scalar 0], none⟩, ⟨[.scalar 2, .scalar 1], none⟩]) ∧
    (∀ (dimLength : ComponentIndex → Nat) (s1 s2 : HashableSlice)
       (label : Option String) (l1 : List ComponentIndex)
       (f : ComponentIndex → List ComponentIndex),
      discreteSliceToIndices dimLength s1 ⟨[], label⟩ = .ok l1 →
      (∀ p ∈ l1, discreteSliceToIndices dimLength s2 p = .ok (f p)) →
      discreteFlattenIndex 2 dimLength ⟨[.slice s1, .slice s2], label⟩ =
        .ok ((l1.map f).flatten)) := by
  refine ⟨by rfl, ?_⟩
  intro dimLength s1 s2 label l1 f h1 h2
  have hm2 := extendAll_ok dimLength s2 f l1 h2
  simp [discreteFlattenIndex, padIndex, flattenLoopTop, flattenStepNoIter,
    extendAll, h1, hm2]

/-- Witness for the quantified part of `C7_flatten_order_amended`. -/
theorem C7_flatten_order_amended_witness :
    discreteFlattenIndex 2 (fun _ => 5)
        ⟨[.slice ⟨some 0, some 0, none⟩, .slice ⟨some 1, some 1, none⟩], none⟩ =
      .ok (([(⟨[.scalar 0], none⟩ : ComponentIndex)].map
        (fun p => [p.push (.scalar 1)])).flatten) :=
  C7_flatten_order_amended.2 (fun _ => 5) ⟨some 0, some 0, none⟩
    ⟨some 1, some 1, none⟩ none [⟨[.scalar 0], none⟩]
    (fun p => [p.push (.scalar 1)]) (by rfl)
    (by
      intro p hp
      simp only [List.mem_singleton] at hp
      subst hp
      rfl)

/-! ## ComponentIndex mutation (C9) -/

/-- A Python `ComponentIndex` object as it lives on the heap: tuple entries
plus the mutable `label` attribute. -/
structure CIObj where
  entries : List Int
  label : Option String
deriving DecidableEq

/-- The `ComponentIndex` branch of `NurbsSurfaceIsoparm._convertUVtoU`,
modelled with an explicit object store to capture Python reference semantics:
`if index.label == 'uv': index.label = 'u'` assigns to the attribute of the
argument object itself, and the same reference is returned. -/
def convertUVtoU_CI (store : List CIObj) (ref : Nat) : List CIObj × Nat :=
  match store[ref]? with
  | some obj =>
    if obj.label = some "uv" then
      (store.set ref { obj with label := some "u" }, ref)
    else (store, ref)
  | none => (store, ref)

/-- C9 counterexample: the claim says no operation changes the label of an
already-constructed ComponentIndex, but running uv-to-u conversion on a store
holding one `"uv"`-labeled ComponentIndex changes that same object's label to
`"u"` in place (the returned reference is the original object). -/
theorem C9_immutability_counterexample :
    (([⟨[1, 2], some "uv"⟩] : List CIObj)[0]?.map CIObj.label =
      some (some "uv")) ∧
    ((convertUVtoU_CI [⟨[1, 2], some "uv"⟩] 0).1[0]?.map CIObj.label =
      some (some "u")) ∧
    ((convertUVtoU_CI [⟨[1, 2], some "uv"⟩] 0).2 = 0) := by
  refine ⟨by rfl, by rfl, by rfl⟩

/-- C9 (amended): narrowing getitem returns a new component whose partial
index extends the original's by the given item (and fails atomically
otherwise), and no operation ever changes the ENTRIES of an
already-constructed ComponentIndex or touches any other object; however, the
uv-to-u label canonicalization mutates the label attribute of an
already-constructed `"uv"`-labeled ComponentIndex in place, setting it to
`"u"` (labels other than `"uv"` are left unchanged). -/
theorem C9_immutability_amended :
    (∀ (store : List CIObj) (ref : Nat), (convertUVtoU_CI store ref).2 = ref) ∧
    (∀ (store : List CIObj) (ref j : Nat),
      ((convertUVtoU_CI store ref).1[j]?).map CIObj.entries =
        (store[j]?).map CIObj.entries) ∧
    (∀ (store : List CIObj) (ref j : Nat), j ≠ ref →
      (convertUVtoU_CI store ref).1[j]? = store[j]?) ∧
    (∀ (store : List CIObj) (ref : Nat) (obj : CIObj),
      store[ref]? = some obj → obj.label ≠ some "uv" →
      (convertUVtoU_CI store ref).1 = store) ∧
    (∀ (store : List CIObj) (ref : Nat) (obj : CIObj),
      store[ref]? = some obj → obj.label = some "uv" →
      (convertUVtoU_CI store ref).1[ref]? =
        some { entries := obj.entries, label := some "u" }) ∧
    (∀ (valid : DimEntry → Bool) (dimLength : ComponentIndex → Nat)
       (c : PComp) (item : DimEntry) (c' : PComp),
      getitem valid dimLength c item = .ok c' →
      ∃ p, c.partialIdx = some p ∧ c'.dims = c.dims ∧
        c'.partialIdx = (if p.entries.length + 1 < c.dims then
          some ⟨p.entries ++ [item], p.label⟩ else none)) := by
  refine ⟨?_, ?_, ?_, ?_, ?_, ?_⟩
  · intro store ref
    unfold convertUVtoU_CI
    rcases h : store[ref]? with _ | obj
    · rfl
    · dsimp only
      split <;> rfl
  · intro store ref j
    unfold convertUVtoU_CI
    rcases h : store[ref]? with _ | obj
    · rfl
    · have hlen : ref < store.length := by
        by_contra hc
        rw [List.getElem?_eq_none (by omega)] at h
        exact Option.noConfusion h
      dsimp only
      by_cases hl : obj.label = some "uv"
      · rw [if_pos hl]
        dsimp only
        by_cases hj : j = ref
        · subst hj
          rw [List.getElem?_set_eq_of_lt _ hlen, h]
          rfl
        · rw [List.getElem?_set_ne (fun he => hj he.symm)]
      · rw [if_neg hl]
  · intro store ref j hj
    unfold convertUVtoU_CI
    rcases h : store[ref]? with _ | obj
    · rfl
    · dsimp only
      by_cases hl : obj.label = some "uv"
      · rw [if_pos hl]
        dsimp only
        rw [List.getElem?_set_ne (fun he => hj he.symm)]
      · rw [if_neg hl]
  · intro store ref obj h hl
    unfold convertUVtoU_CI
    rw [h]
    dsimp only
    rw [if_neg hl]
  · intro store ref obj h hl
    have hlen : ref < store.length := by
      by_contra hc
      rw [List.getElem?_eq_none (by omega)] at h
      exact Option.noConfusion h
    unfold convertUVtoU_CI
    rw [h]
    dsimp only
    rw [if_pos hl]
    dsimp only
    rw [List.getElem?_set_eq_of_lt _ hlen]
  · intro valid dimLength c item c' h
    rcases hp : c.partialIdx with _ | p
    · rw [getitem, hp] at h
      exact Except.noConfusion h
    · rw [getitem, hp] at h
      dsimp only at h
      by_cases hlen : p.entries.length < c.dims
      · rw [if_pos hlen] at h
        rcases hv : validateGetItemIndice valid
            (discreteDimRange (dimLength p)) item with e | u
        · rw [hv] at h
          exact Except.noConfusion h
        · rw [hv] at h
          simp only [exceptOk_bind] at h
          injection h with h
          refine ⟨p, rfl, ?_, ?_⟩
          · rw [← h]
          · rw [← h]
            simp [List.length_append]
      · rw [if_neg hlen] at h
        exact Except.noConfusion h

/-- Witness for the quantified parts of `C9_immutability_amended`. -/
theorem C9_immutability_amended_witness :
    (convertUVtoU_CI [⟨[7], some "v"⟩] 0).1 = [⟨[7], some "v"⟩] :=
  C9_immutability_amended.2.2.2.1 [⟨[7], some "v"⟩] 0 ⟨[7], some "v"⟩ rfl
    (by decide)

/-! ## Address codec (C4)

The encoder lives in the source (`_formatSlice`, `_sequenceToComponentSlice`,
and the comma-join in `Component1D.name`); `pymel.util.sequenceToSlices` and
the host-side decoder are outside `src/` and are modelled from the spec. -/

/-- The decimal digit characters. -/
def digitChar : Nat → Char
  | 0 => '0' | 1 => '1' | 2 => '2' | 3 => '3' | 4 => '4'
  | 5 => '5' | 6 => '6' | 7 => '7' | 8 => '8' | _ => '9'

/-- Decimal rendering of a natural number (`'%s' % n` for the numbers the
codec prints). -/
def natToDigits (n : Nat) : List Char :=
  if _h : n < 10 then [digitChar n]
  else natToDigits (n / 10) ++ [digitChar (n % 10)]
termination_by n
decreasing_by omega

/-- `'%s' % i` for an integer. -/
def renderInt (i : Int) : List Char :=
  if i < 0 then '-' :: natToDigits (-i).toNat else natToDigits i.toNat

/-- The numeric value of a decimal digit character, if it is one. -/
def digitVal? (c : Char) : Option Nat :=
  if 48 ≤ c.toNat ∧ c.toNat ≤ 57 then some (c.toNat - 48) else none

/-- Accumulating decimal parse; fails on any non-digit character. -/
def parseNatAcc : Nat → List Char → Option Nat
  | acc, [] => some acc
  | acc, c :: cs =>
    match digitVal? c with
    | some d => parseNatAcc (acc * 10 + d) cs
    | none => none

/-- Modelled from the spec: the host-side parse of a (non-empty) decimal
numeral in an address string — `number` in the §6 grammar; the decoder is
part of the external collaborator, not under `src/`. -/
def parseNat : List Char → Option Nat
  | [] => none
  | c :: cs => parseNatAcc 0 (c :: cs)

/-- Modelled from the spec: parse of a possibly negative decimal numeral. -/
def parseInt : List Char → Option Int
  | [] => none
  | c :: rest =>
    if c = '-' then (parseNat rest).map (fun n => -(n : Int))
    else (parseNat (c :: rest)).map (fun n => (n : Int))

/-- Split a character list at every occurrence of `sep` (the inverse of the
`','.join` / `':'`-joins the encoder performs). -/
def splitOnChar (sep : Char) : List Char → List (List Char)
  | [] => [[]]
  | c :: cs =>
    if c = sep then [] :: splitOnChar sep cs
    else
      match splitOnChar sep cs with
      | [] => [[c]]
      | p :: ps => (c :: p) :: ps

/-- `sep.join(pieces)`. -/
def joinChar (sep : Char) : List (List Char) → List Char
  | [] => []
  | [p] => p
  | p :: ps => p ++ sep :: joinChar sep ps

/-- The arithmetic progression `a, a+st, …` of `n` terms. -/
def arith (a st : Int) (n : Nat) : List Int :=
  (List.range n).map (fun j : Nat => a + st * (j : Int))

/-- Greedy extension of a run: consume elements while each equals the
previous plus `step`; return the run and the untouched remainder. -/
def takeRun (step : Int) : Int → List Int → List Int × List Int
  | _, [] => ([], [])
  | prev, y :: ys =>
    if y = prev + step then
      let t := takeRun step y ys
      (y :: t.1, t.2)
    else ([], y :: ys)

/-- The remainder of `takeRun` is never longer than the input. -/
theorem takeRun_len (step : Int) :
    ∀ (l : List Int) (prev : Int), (takeRun step prev l).2.length ≤ l.length := by
  intro l
  induction l with
  | nil => intro prev; simp [takeRun]
  | cons y ys ih =>
    intro prev
    by_cases h : y = prev + step
    · simp only [takeRun, if_pos h]
      exact le_trans (ih y) (by simp)
    · simp [takeRun, if_neg h]

/-- Modelled from the spec: `pymel.util.sequenceToSlices` (imported by
`_sequenceToComponentSlice` but not under `src/`) — group a sequence into
maximal contiguous runs with a common step, each rendered as a Python
half-open slice `(start, stop, step)`; a one-element run has no step. -/
def sequenceToSlices : List Int → List (Int × Int × Option Int)
  | [] => []
  | [x] => [(x, x + 1, none)]
  | x :: y :: rest =>
    (x, (y + (y - x) * ((takeRun (y - x) y rest).1.length : Int)) + 1,
      some (y - x)) ::
      sequenceToSlices (takeRun (y - x) y rest).2
termination_by l => l.length
decreasing_by
  simp only [List.length_cons]
  have := takeRun_len (y - x) rest y
  omega

/-- `_sequenceToComponentSlice`: convert the Python half-open slices to
maya inclusive slices, `HashableSlice(x.start, x.stop - 1, x.step)`. -/
def sequenceToComponentSlice (array : List Int) : List (Int × Int × Option Int) :=
  (sequenceToSlices array).map (fun t => (t.1, t.2.1 - 1, t.2.2))

/-- `_formatSlice`: a slice whose start equals its stop prints as a bare
scalar; a step other than `None`/`1` prints `start:stop:step`; otherwise
`start:stop`. -/
def formatSlice : Int × Int × Option Int → List Char
  | (a, b, stp) =>
    if a = b then renderInt a
    else
      match stp with
      | some st =>
        if st ≠ 1 then
          renderInt a ++ [':'] ++ renderInt b ++ [':'] ++ renderInt st
        else renderInt a ++ [':'] ++ renderInt b
      | none => renderInt a ++ [':'] ++ renderInt b

/-- The bracket-content encoder of `Component1D.name`:
`','.join([_formatSlice(x) for x in _sequenceToComponentSlice(indices)])`. -/
def encodeIndices (indices : List Int) : List Char :=
  joinChar ',' ((sequenceToComponentSlice indices).map formatSlice)

/-- Modelled from the spec: inclusive expansion of a decoded range `a:b`
(step 1) or `a:b:st` — "maya-style inclusive ranges". -/
def expandIncl (a b st : Int) : List Int :=
  rangeList a (b + 1) st

/-- Modelled from the spec (§6 grammar, §4.7): decode one comma-separated
piece — a bare scalar, `a:b`, or `a:b:st` — into the indices it denotes. -/
def parseRun (cs : List Char) : Option (List Int) :=
  match splitOnChar ':' cs with
  | [a] => (parseInt a).map (fun x => [x])
  | [a, b] =>
    match parseInt a, parseInt b with
    | some x, some y => some (expandIncl x y 1)
    | _, _ => none
  | [a, b, c] =>
    match parseInt a, parseInt b, parseInt c with
    | some x, some y, some z => some (expandIncl x y z)
    | _, _, _ => none
  | _ => none

/-- Decode a list of pieces, concatenating their expansions in order. -/
def parseRuns : List (List Char) → Option (List Int)
  | [] => some []
  | p :: ps =>
    match parseRun p, parseRuns ps with
    | some xs, some ys => some (xs ++ ys)
    | _, _ => none

/-- Modelled from the spec: the full decoder of a bracket content string —
split on commas and expand each piece.  Inverse of `encodeIndices`. -/
def decodeIndices (cs : List Char) : Option (List Int) :=
  parseRuns (splitOnChar ',' cs)

/-! ### Numeral round trip -/

/-- Digit characters parse back to their value. -/
theorem digitVal?_digitChar (k : Nat) (hk : k < 10) :
    digitVal? (digitChar k) = some k := by
  interval_cases k <;> rfl

/-- Digit characters have code points in `[48, 57]`. -/
theorem digitChar_code (k : Nat) (hk : k < 10) :
    48 ≤ (digitChar k).toNat ∧ (digitChar k).toNat ≤ 57 := by
  interval_cases k <;> exact ⟨by decide, by decide⟩

/-- Every character of a rendered natural is a decimal digit. -/
theorem natToDigits_code (n : Nat) :
    ∀ c ∈ natToDigits n, 48 ≤ c.toNat ∧ c.toNat ≤ 57 := by
  induction n using Nat.strong_induction_on with
  | _ n ih =>
    intro c hc
    rw [natToDigits] at hc
    by_cases h : n < 10
    · rw [dif_pos h] at hc
      simp only [List.mem_singleton] at hc
      subst hc
      exact digitChar_code n h
    · rw [dif_neg h] at hc
      rcases List.mem_append.mp hc with h1 | h2
      · exact ih (n / 10) (by omega) c h1
      · simp only [List.mem_singleton] at h2
        subst h2
        exact digitChar_code (n % 10) (by omega)

/-- Rendered naturals are non-empty. -/
theorem natToDigits_ne_nil (n : Nat) : natToDigits n ≠ [] := by
  rw [natToDigits]
  by_cases h : n < 10
  · rw [dif_pos h]
    exact List.cons_ne_nil _ _
  · rw [dif_neg h]
    simp

/-- Accumulating parse distributes over append. -/
theorem parseNatAcc_append (l1 l2 : List Char) :
    ∀ acc, parseNatAcc acc (l1 ++ l2) =
      (parseNatAcc acc l1).bind (fun a => parseNatAcc a l2) := by
  induction l1 with
  | nil => intro acc; rfl
  | cons c cs ih =>
    intro acc
    simp only [List.cons_append, parseNatAcc]
    rcases h : digitVal? c with _ | d
    · rfl
    · exact ih (acc * 10 + d)

/-- Parsing a rendered natural under an accumulator. -/
theorem parseNatAcc_natToDigits (n : Nat) :
    ∀ acc, parseNatAcc acc (natToDigits n) =
      some (acc * 10 ^ (natToDigits n).length + n) := by
  induction n using Nat.strong_induction_on with
  | _ n ih =>
    intro acc
    rw [natToDigits]
    by_cases h : n < 10
    · rw [dif_pos h]
      simp only [parseNatAcc, digitVal?_digitChar n h, List.length_singleton,
        pow_one]
    · rw [dif_neg h]
      rw [parseNatAcc_append]
      rw [ih (n / 10) (by omega) acc]
      simp only [Option.some_bind, Option.bind_some, Option.bind_eq_bind,
        parseNatAcc, digitVal?_digitChar (n % 10) (by omega : n % 10 < 10),
        List.length_append, List.length_singleton]
      congr 1
      have hdm : n / 10 * 10 + n % 10 = n := by omega
      calc (acc * 10 ^ (natToDigits (n / 10)).length + n / 10) * 10 + n % 10
          = acc * (10 ^ (natToDigits (n / 10)).length * 10) +
              (n / 10 * 10 + n % 10) := by ring
        _ = acc * 10 ^ ((natToDigits (n / 10)).length + 1) + n := by
              rw [hdm, pow_succ]

/-- `parseNat` inverts `natToDigits`. -/
theorem parseNat_natToDigits (n : Nat) : parseNat (natToDigits n) = some n := by
  rcases h : natToDigits n with _ | ⟨c, cs⟩
  · exact absurd h (natToDigits_ne_nil n)
  · show parseNatAcc 0 (c :: cs) = some n
    rw [← h, parseNatAcc_natToDigits n 0]
    simp

/-- A digit character is not the minus sign. -/
theorem digit_ne_minus {c : Char} (h : 48 ≤ c.toNat ∧ c.toNat ≤ 57) :
    ¬ c = '-' := by
  intro he
  subst he
  exact absurd h (by decide)

/-- `parseInt` inverts `renderInt`. -/
theorem parseInt_renderInt (i : Int) : parseInt (renderInt i) = some i := by
  by_cases hi : i < 0
  · rw [renderInt, if_pos hi]
    have h1 : parseInt ('-' :: natToDigits (-i).toNat) =
        (parseNat (natToDigits (-i).toNat)).map (fun n => -(n : Int)) := by
      simp [parseInt]
    rw [h1, parseNat_natToDigits]
    simp
    omega
  · rw [renderInt, if_neg hi]
    rcases h : natToDigits i.toNat with _ | ⟨c, cs⟩
    · exact absurd h (natToDigits_ne_nil _)
    · have hc : ¬ c = '-' :=
        digit_ne_minus (natToDigits_code i.toNat c (by rw [h]; simp))
      have h1 : parseInt (c :: cs) =
          (parseNat (c :: cs)).map (fun n => (n : Int)) := by
        simp [parseInt, hc]
      rw [h1, ← h, parseNat_natToDigits]
      simp
      omega

/-! ### Split / join round trip -/

/-- Splitting a separator-free piece gives back the piece alone. -/
theorem splitOnChar_no_sep (sep : Char) :
    ∀ l : List Char, sep ∉ l → splitOnChar sep l = [l] := by
  intro l
  induction l with
  | nil => intro _; rfl
  | cons c cs ih =>
    intro h
    have hc : ¬ c = sep := fun he => h (by rw [he]; exact List.mem_cons_self _ _)
    have hcs : sep ∉ cs := fun hm => h (List.mem_cons_of_mem _ hm)
    simp only [splitOnChar, if_neg hc, ih hcs]

/-- Splitting past a separator-free head piece peels it off. -/
theorem splitOnChar_append_sep (sep : Char) :
    ∀ (p t : List Char), sep ∉ p →
      splitOnChar sep (p ++ sep :: t) = p :: splitOnChar sep t := by
  intro p
  induction p with
  | nil => intro t _; simp [splitOnChar]
  | cons c cs ih =>
    intro t h
    have hc : ¬ c = sep := fun he => h (by rw [he]; exact List.mem_cons_self _ _)
    have hcs : sep ∉ cs := fun hm => h (List.mem_cons_of_mem _ hm)
    simp only [List.cons_append, splitOnChar, if_neg hc, List.append_eq,
      ih t hcs]

/-- Splitting inverts joining for a non-empty list of separator-free pieces. -/
theorem splitOnChar_joinChar (sep : Char) :
    ∀ pieces : List (List Char), pieces ≠ [] → (∀ p ∈ pieces, sep ∉ p) →
      splitOnChar sep (joinChar sep pieces) = pieces := by
  intro pieces
  induction pieces with
  | nil => intro h _; exact absurd rfl h
  | cons p ps ih =>
    intro _ h
    rcases ps with _ | ⟨q, qs⟩
    · show splitOnChar sep (joinChar sep [p]) = [p]
      rw [joinChar]
      exact splitOnChar_no_sep sep p (h p (by simp))
    · show splitOnChar sep (p ++ sep :: joinChar sep (q :: qs)) = p :: q :: qs
      rw [splitOnChar_append_sep sep p _ (h p (by simp))]
      rw [ih (by simp) (fun r hr => h r (List.mem_cons_of_mem _ hr))]

/-- Every character of `renderInt` is a digit or the minus sign. -/
theorem renderInt_code (i : Int) :
    ∀ c ∈ renderInt i, c.toNat = 45 ∨ (48 ≤ c.toNat ∧ c.toNat ≤ 57) := by
  intro c hc
  rw [renderInt] at hc
  by_cases hi : i < 0
  · rw [if_pos hi] at hc
    rcases List.mem_cons.mp hc with h1 | h2
    · left; rw [h1]; rfl
    · right; exact natToDigits_code _ c h2
  · rw [if_neg hi] at hc
    right; exact natToDigits_code _ c hc

/-- `renderInt` never prints a colon. -/
theorem renderInt_no_colon (i : Int) : (':' : Char) ∉ renderInt i := by
  intro h
  rcases renderInt_code i ':' h with h1 | h2
  · exact absurd h1 (by decide)
  · exact absurd h2 (by decide)

/-- `renderInt` never prints a comma. -/
theorem renderInt_no_comma (i : Int) : (',' : Char) ∉ renderInt i := by
  intro h
  rcases renderInt_code i ',' h with h1 | h2
  · exact absurd h1 (by decide)
  · exact absurd h2 (by decide)

/-- `_formatSlice` never prints a comma (its output is digits, minus signs
and colons), so the comma-join in `Component1D.name` is unambiguous. -/
theorem formatSlice_no_comma (t : Int × Int × Option Int) :
    (',' : Char) ∉ formatSlice t := by
  rcases t with ⟨a, b, stp⟩
  intro h
  rw [formatSlice.eq_def] at h
  dsimp only at h
  by_cases hab : a = b
  · rw [if_pos hab] at h
    exact renderInt_no_comma a h
  · rw [if_neg hab] at h
    rcases stp with _ | st
    · simp only [List.append_assoc, List.mem_append, List.mem_singleton] at h
      rcases h with h | h | h
      · exact renderInt_no_comma a h
      · exact absurd h (by decide)
      · exact renderInt_no_comma b h
    · dsimp only at h
      by_cases hst : st ≠ 1
      · rw [if_pos hst] at h
        simp only [List.append_assoc, List.mem_append, List.mem_singleton] at h
        rcases h with h | h | h | h | h
        · exact renderInt_no_comma a h
        · exact absurd h (by decide)
        · exact renderInt_no_comma b h
        · exact absurd h (by decide)
        · exact renderInt_no_comma st h
      · rw [if_neg hst] at h
        simp only [List.append_assoc, List.mem_append, List.mem_singleton] at h
        rcases h with h | h | h
        · exact renderInt_no_comma a h
        · exact absurd h (by decide)
        · exact renderInt_no_comma b h

/-! ### Run structure and piece decoding -/

/-- Unfolding an arithmetic progression at its head. -/
theorem arith_succ_cons (a st : Int) (n : Nat) :
    arith a st (n + 1) = a :: arith (a + st) st n := by
  rw [arith, arith, List.range_succ_eq_map, List.map_cons, List.map_map]
  simp only [Nat.cast_zero, mul_zero, add_zero]
  congr 1
  apply List.map_congr_left
  intro j _
  simp only [Function.comp_apply]
  push_cast
  ring

/-- `takeRun` splits its input. -/
theorem takeRun_append (step : Int) :
    ∀ (l : List Int) (prev : Int),
      (takeRun step prev l).1 ++ (takeRun step prev l).2 = l := by
  intro l
  induction l with
  | nil => intro prev; rfl
  | cons y ys ih =>
    intro prev
    rw [takeRun]
    by_cases h : y = prev + step
    · rw [if_pos h]
      dsimp only
      rw [List.cons_append, ih y]
    · rw [if_neg h]
      rfl

/-- The run produced by `takeRun` is the arithmetic progression continuing
from `prev` with the given step. -/
theorem takeRun_arith (step : Int) :
    ∀ (l : List Int) (prev : Int),
      (takeRun step prev l).1 =
        arith (prev + step) step (takeRun step prev l).1.length := by
  intro l
  induction l with
  | nil => intro prev; rfl
  | cons y ys ih =>
    intro prev
    rw [takeRun]
    by_cases h : y = prev + step
    · rw [if_pos h]
      dsimp only
      rw [List.length_cons, arith_succ_cons, ← h]
      congr 1
      exact ih y
    · rw [if_neg h]
      rfl

/-- `rangeList` over an exact arithmetic span enumerates the progression. -/
theorem rangeList_arith (a st : Int) (hst : 0 < st) (k : Nat) :
    rangeList a (a + st * k + 1) st = arith a st (k + 1) := by
  rw [rangeList, arith]
  congr 1
  rw [rangeLen]
  have hk : (0 : Int) ≤ st * k := mul_nonneg hst.le (Int.natCast_nonneg k)
  have hcond : 0 < st ∧ a < a + st * k + 1 := ⟨hst, by omega⟩
  rw [if_pos hcond]
  have heq : (a + st * (k : Int) + 1 - a - 1) = st * k := by ring
  rw [heq, Int.mul_ediv_cancel_left _ (by omega : st ≠ 0)]
  have hto : (((k : Nat) : Int) + 1).toNat = k + 1 := by omega
  rw [hto]

/-- Decoding a bare scalar piece. -/
theorem parseRun_scalar (x : Int) : parseRun (renderInt x) = some [x] := by
  rw [parseRun,
    splitOnChar_no_sep (':' : Char) (renderInt x) (renderInt_no_colon x)]
  dsimp only
  rw [parseInt_renderInt]
  rfl

/-- Decoding a two-part piece `a:b` (step 1). -/
theorem parseRun_pair (a b : Int) :
    parseRun (renderInt a ++ [':'] ++ renderInt b) = some (expandIncl a b 1) := by
  have hs : splitOnChar ':' (renderInt a ++ [':'] ++ renderInt b) =
      [renderInt a, renderInt b] := by
    rw [List.append_assoc, List.singleton_append]
    rw [splitOnChar_append_sep ':' _ _ (renderInt_no_colon a)]
    rw [splitOnChar_no_sep ':' _ (renderInt_no_colon b)]
  rw [parseRun, hs]
  dsimp only
  rw [parseInt_renderInt, parseInt_renderInt]

/-- Decoding a three-part piece `a:b:st`. -/
theorem parseRun_triple (a b st : Int) :
    parseRun (renderInt a ++ [':'] ++ renderInt b ++ [':'] ++ renderInt st) =
      some (expandIncl a b st) := by
  have hs : splitOnChar ':'
      (renderInt a ++ [':'] ++ renderInt b ++ [':'] ++ renderInt st) =
      [renderInt a, renderInt b, renderInt st] := by
    simp only [List.append_assoc, List.singleton_append, List.cons_append,
      List.nil_append]
    rw [splitOnChar_append_sep ':' _ _ (renderInt_no_colon a),
      splitOnChar_append_sep ':' _ _ (renderInt_no_colon b),
      splitOnChar_no_sep ':' _ (renderInt_no_colon st)]
  rw [parseRun, hs]
  dsimp only
  rw [parseInt_renderInt, parseInt_renderInt, parseInt_renderInt]

/-- Formatting then decoding the run slices of a strictly ascending sequence
recovers the sequence (bounded induction on the length). -/
theorem parseRuns_encode :
    ∀ (n : Nat) (S : List Int), S.length ≤ n → List.Chain' (· < ·) S →
      parseRuns ((sequenceToComponentSlice S).map formatSlice) = some S := by
  intro n
  induction n with
  | zero =>
    intro S hlen _
    have hS : S = [] := List.length_eq_zero.mp (by omega)
    subst hS
    rw [sequenceToComponentSlice, sequenceToSlices]
    rfl
  | succ m ih =>
    intro S hlen hchain
    match S with
    | [] =>
      rw [sequenceToComponentSlice, sequenceToSlices]
      rfl
    | [x] =>
      have h1 : sequenceToComponentSlice [x] = [(x, x, none)] := by
        rw [sequenceToComponentSlice, sequenceToSlices]
        simp
      rw [h1]
      have h2 : formatSlice (x, x, (none : Option Int)) = renderInt x := by
        rw [formatSlice.eq_def]
        dsimp only
        rw [if_pos rfl]
      rw [List.map_cons, List.map_nil, h2]
      rw [parseRuns, parseRun_scalar x]
      rfl
    | x :: y :: rest =>
      have hxy : x < y := (List.chain'_cons.mp hchain).1
      have hst : 0 < y - x := by omega
      obtain ⟨run, rem, hrun⟩ : ∃ run rem, takeRun (y - x) y rest = (run, rem) :=
        ⟨_, _, rfl⟩
      have happ : run ++ rem = rest := by
        have h := takeRun_append (y - x) rest y
        rw [hrun] at h
        exact h
      have harith : run = arith (y + (y - x)) (y - x) run.length := by
        have h := takeRun_arith (y - x) rest y
        rw [hrun] at h
        exact h
      have hseq : sequenceToSlices (x :: y :: rest) =
          (x, (y + (y - x) * (run.length : Int)) + 1, some (y - x)) ::
            sequenceToSlices rem := by
        rw [sequenceToSlices, hrun]
      have hmaya : sequenceToComponentSlice (x :: y :: rest) =
          (x, y + (y - x) * (run.length : Int), some (y - x)) ::
            sequenceToComponentSlice rem := by
        rw [sequenceToComponentSlice, hseq, List.map_cons]
        dsimp only
        rw [add_sub_cancel_right]
        rfl
      have hlast : y + (y - x) * (run.length : Int) =
          x + (y - x) * ((run.length : Int) + 1) := by ring
      have hpos : (0 : Int) < (y - x) * ((run.length : Int) + 1) :=
        mul_pos hst (by omega)
      have hne : ¬ x = y + (y - x) * (run.length : Int) := by
        rw [hlast]
        intro hcontra
        omega
      have hexp : expandIncl x (y + (y - x) * (run.length : Int)) (y - x) =
          arith x (y - x) (run.length + 2) := by
        rw [expandIncl, hlast]
        have h2 := rangeList_arith x (y - x) hst (run.length + 1)
        push_cast at h2
        exact h2
      have hy : x + (y - x) = y := by omega
      have hseg : arith x (y - x) (run.length + 2) = x :: y :: run := by
        show arith x (y - x) (run.length + 1 + 1) = _
        rw [arith_succ_cons, hy, arith_succ_cons, ← harith]
      have hparse : parseRun (formatSlice
          (x, y + (y - x) * (run.length : Int), some (y - x))) =
          some (x :: y :: run) := by
        rw [formatSlice.eq_def]
        dsimp only
        rw [if_neg hne]
        by_cases hst1 : y - x ≠ 1
        · rw [if_pos hst1, parseRun_triple, hexp, hseg]
        · rw [if_neg hst1, parseRun_pair]
          have h1 : y - x = 1 := by omega
          rw [← h1, hexp, hseg]
      have hlen2 : rem.length ≤ m := by
        have h1 := congrArg List.length happ
        simp only [List.length_append] at h1
        simp only [List.length_cons] at hlen
        omega
      have hchainrem : List.Chain' (· < ·) rem :=
        hchain.suffix ⟨x :: y :: run, by simp [happ]⟩
      rw [hmaya, List.map_cons, parseRuns]
      rw [hparse, ih rem hlen2 hchainrem]
      dsimp only
      rw [List.cons_append, List.cons_append, happ]

/-- C4: for every index set producible by the subsystem under a single common
label — a non-empty, strictly ascending list of indices — decoding the
encoded bracket-content string returns the set exactly:
`decode(encode(S)) = S`.  The encoder compacts maximal contiguous runs with a
common step into `start:stop:step` notation (`start:stop` when the step is 1,
a bare scalar for a one-element run) and the decoder re-expands those
inclusive runs. -/
theorem C4_roundtrip_decode_encode :
    ∀ S : List Int, S ≠ [] → List.Chain' (· < ·) S →
      decodeIndices (encodeIndices S) = some S := by
  intro S hne hchain
  rw [decodeIndices, encodeIndices]
  have hpieces : (sequenceToComponentSlice S).map formatSlice ≠ [] := by
    rcases S with _ | ⟨x, rest⟩
    · exact absurd rfl hne
    · rcases rest with _ | ⟨y, rest2⟩
      · rw [sequenceToComponentSlice, sequenceToSlices]
        simp
      · rw [sequenceToComponentSlice, sequenceToSlices]
        simp
  have hfree : ∀ p ∈ (sequenceToComponentSlice S).map formatSlice,
      (',' : Char) ∉ p := by
    intro p hp
    rcases List.mem_map.mp hp with ⟨t, _, ht⟩
    rw [← ht]
    exact formatSlice_no_comma t
  rw [splitOnChar_joinChar ',' _ hpieces hfree]
  exact parseRuns_encode S.length S le_rfl hchain

/-- Witness for `C4_roundtrip_decode_encode` at the concrete index set
`{0,1,2,5,9}` (encoded as `"0:2,5:9:4"`). -/
theorem C4_roundtrip_decode_encode_witness :
    decodeIndices (encodeIndices [0, 1, 2, 5, 9]) = some [0, 1, 2, 5, 9] :=
  C4_roundtrip_decode_encode [0, 1, 2, 5, 9] (by decide)
    (by norm_num [List.chain'_cons])

end Pymel
